import Mathlib

/-!
Verification of the blockMeshDict vertex viewer (blockMeshPlot.py).

The development shallowly embeds the two core components of the program:

* the coordinate scanner `parse_blockmesh_dict` (comment stripping with
  `re.sub` of the patterns for line and block comments, isolation of the
  first `vertices ( ... );` span, and extraction of numeric triplets), and
* the duplicate grouper of `create_interactive_viewer` (quantized keys
  obtained by rounding each axis to the nearest multiple of the tolerance,
  insertion-ordered grouping, representative coordinates and labels).

Text is embedded as `List Char`.  Numeric values are embedded as exact
rationals: the Python program computes with binary doubles, and the claims
under study concern the mathematical values, so the embedding evaluates
the decimal literals and the rounding rule exactly over `ℚ`.  NumPy's
`np.round` rounds halves to even, which `rne` mirrors.  All functions are
structurally recursive, hence computable by `decide` on concrete inputs.
-/

/-- Python regex `\s` on the ASCII range: the six whitespace characters. -/
def isSpace (c : Char) : Bool :=
  c = ' ' ∨ c = '\t' ∨ c = '\n' ∨ c = '\r' ∨ c = '\x0b' ∨ c = '\x0c'

/-- Decimal digit test, regex class `[0-9]`. -/
def isDigit (c : Char) : Bool := '0' ≤ c ∧ c ≤ '9'

/-- Numeric value of a digit character. -/
def digitVal (c : Char) : ℕ := c.toNat - ('0').toNat

/-- Value of a digit string, most significant digit first. -/
def digitsVal (ds : List Char) : ℕ := ds.foldl (fun a c => 10 * a + digitVal c) 0

/-- Exact rational value of `10 ** e` for an integer exponent. -/
def pow10 (e : ℤ) : ℚ := if 0 ≤ e then (10 : ℚ) ^ e.toNat else ((1 : ℚ) / 10) ^ (-e).toNat

/-- Optional sign, regex `[-+]?`: the consumed sign factor and the rest. -/
def parseSign (s : List Char) : ℚ × List Char :=
  match s with
  | [] => (1, [])
  | c :: r => if c = '+' then (1, r) else if c = '-' then (-1, r) else (1, c :: r)

/-- Exponent part, regex `(?:[eE][-+]?[0-9]+)?` evaluated at the front of
the input: `some (e, rest)` when the whole group matches, `none` when the
optional group fails and consumes nothing. -/
def parseExp (s : List Char) : Option (ℤ × List Char) :=
  match s with
  | [] => none
  | c :: r =>
    if c = 'e' ∨ c = 'E' then
      let sg : ℤ × List Char :=
        match r with
        | [] => (1, [])
        | c2 :: r2 => if c2 = '+' then (1, r2) else if c2 = '-' then (-1, r2) else (1, c2 :: r2)
      let ds := sg.2.takeWhile isDigit
      if ds.isEmpty then none
      else some (sg.1 * (digitsVal ds : ℤ), sg.2.dropWhile isDigit)
    else none

/-- Longest match of the number regex
`[-+]?[0-9]*\.?[0-9]+(?:[eE][-+]?[0-9]+)?` at the front of the input,
with its exact rational value.  Candidate matches of this regex at a fixed
position are nested prefixes, and in `tripletAt` the character following a
successful number must be whitespace or a closing parenthesis, which never
occurs strictly inside a longer candidate; hence the backtracking engine
accepts exactly the longest candidate, which this function computes. -/
def longestNum (s : List Char) : Option (ℚ × List Char) :=
  let sg := parseSign s
  let d1 := sg.2.takeWhile isDigit
  match sg.2.dropWhile isDigit with
  | [] =>
    if d1.isEmpty then none
    else some (sg.1 * (digitsVal d1 : ℚ), [])
  | c :: r2 =>
    if c = '.' then
      let d2 := r2.takeWhile isDigit
      if d2.isEmpty then
        if d1.isEmpty then none
        else some (sg.1 * (digitsVal d1 : ℚ), c :: r2)
      else
        let m : ℚ := (digitsVal d1 : ℚ) + (digitsVal d2 : ℚ) / 10 ^ d2.length
        match parseExp (r2.dropWhile isDigit) with
        | some er => some (sg.1 * m * pow10 er.1, er.2)
        | none => some (sg.1 * m, r2.dropWhile isDigit)
    else
      if d1.isEmpty then none
      else
        match parseExp (c :: r2) with
        | some er => some (sg.1 * (digitsVal d1 : ℚ) * pow10 er.1, er.2)
        | none => some (sg.1 * (digitsVal d1 : ℚ), c :: r2)

/-- A parsed coordinate: an exact triple of rationals. -/
abbrev Coord := ℚ × ℚ × ℚ

/-- Match of the triplet regex
`\(\s*(NUM)\s+(NUM)\s+(NUM)\s*\)` at the front of the input: the
coordinate value and the remaining input after the closing parenthesis.
The whitespace pieces are forced to their maximal runs because no number
can start with a whitespace character. -/
def tripletAt (s : List Char) : Option (Coord × List Char) :=
  match s with
  | [] => none
  | c0 :: r =>
    if c0 = '(' then
      match longestNum (r.dropWhile isSpace) with
      | none => none
      | some (x, r2) =>
        match r2 with
        | [] => none
        | c2 :: r3 =>
          if isSpace c2 then
            match longestNum (r3.dropWhile isSpace) with
            | none => none
            | some (y, r4) =>
              match r4 with
              | [] => none
              | c3 :: r5 =>
                if isSpace c3 then
                  match longestNum (r5.dropWhile isSpace) with
                  | none => none
                  | some (z, r6) =>
                    match r6.dropWhile isSpace with
                    | [] => none
                    | c4 :: rest => if c4 = ')' then some ((x, y, z), rest) else none
                else none
          else none
    else none

/-- State machine for `re.sub(r'//.*', '', content)`: in state `true` the
scanner is inside a line comment and discards characters up to (not
including) the next newline. -/
def stripLineAux : Bool → List Char → List Char
  | true, [] => []
  | true, c :: cs => if c = '\n' then '\n' :: stripLineAux false cs else stripLineAux true cs
  | false, [] => []
  | false, [c] => [c]
  | false, c :: c2 :: cs2 =>
    if c = '/' ∧ c2 = '/' then stripLineAux true cs2
    else c :: stripLineAux false (c2 :: cs2)

/-- Removal of `//`-to-end-of-line comments, the first substitution of
`parse_blockmesh_dict` (line 20 of the source). -/
def stripLineComments (s : List Char) : List Char := stripLineAux false s

/-- State machine for `re.sub(r'/\*.*?\*/', '', content, flags=re.DOTALL)`:
state `some pend` is inside a candidate block comment whose consumed text
(reversed) is `pend`; if the input ends before a closing `*/`, the regex
never matched, so the pending text is emitted verbatim. -/
def stripBlockAux : Option (List Char) → List Char → List Char
  | none, [] => []
  | none, [c] => [c]
  | none, c :: c2 :: cs2 =>
    if c = '/' ∧ c2 = '*' then stripBlockAux (some ['*', '/']) cs2
    else c :: stripBlockAux none (c2 :: cs2)
  | some pend, [] => pend.reverse
  | some pend, [c] => (c :: pend).reverse
  | some pend, c :: c2 :: cs2 =>
    if c = '*' ∧ c2 = '/' then stripBlockAux none cs2
    else stripBlockAux (some (c :: pend)) (c2 :: cs2)

/-- Removal of `/* ... */` block comments, the second substitution of
`parse_blockmesh_dict` (line 21 of the source). -/
def stripBlockComments (s : List Char) : List Char := stripBlockAux none s

/-- Lazy capture of `(.*?)\);`: the prefix of the input before the first
occurrence of a closing parenthesis immediately followed by a semicolon,
or `none` when no such occurrence exists. -/
def takeUpToCloseSemi : List Char → Option (List Char)
  | [] => none
  | c :: cs =>
    if c = ')' then
      match cs with
      | [] => none
      | c2 :: _ => if c2 = ';' then some [] else (takeUpToCloseSemi cs).map (fun t => c :: t)
    else (takeUpToCloseSemi cs).map (fun t => c :: t)

/-- Match of `vertices\s*\((.*?)\);` (DOTALL) anchored at the front of the
input, returning the captured group. -/
def matchVerticesAt (s : List Char) : Option (List Char) :=
  if (("vertices").toList).isPrefixOf s then
    match (s.drop 8).dropWhile isSpace with
    | [] => none
    | c :: rest => if c = '(' then takeUpToCloseSemi rest else none
  else none

/-- Search for `vertices\s*\((.*?)\);` (line 24 of the source): the match
anchored at the leftmost position where the whole pattern succeeds. -/
def findVertices (s : List Char) : Option (List Char) :=
  match matchVerticesAt s with
  | some span => some span
  | none =>
    match s with
    | [] => none
    | _ :: t => findVertices t

/-- Fuelled scan of `re.findall(coord_pattern, text)`: try the triplet
pattern at each position from left to right, and resume after the end of
each successful match. -/
def findTripletsF : ℕ → List Char → List Coord
  | 0, _ => []
  | fuel + 1, s =>
    match tripletAt s with
    | some (c, rest) => c :: findTripletsF fuel rest
    | none =>
      match s with
      | [] => []
      | _ :: t => findTripletsF fuel t

/-- All matches of the coordinate-triplet pattern, left to right and
non-overlapping (lines 32 to 34 of the source).  The fuel `s.length`
always suffices because every step consumes at least one character. -/
def findTriplets (s : List Char) : List Coord := findTripletsF s.length s

/-- Embedding of `parse_blockmesh_dict` on the file's text: strip line
comments, then block comments, isolate the first vertices span, extract
the triplets, and fail when no span or no triplet is found. -/
def parse_blockmesh_dict (content : List Char) : Except String (List Coord) :=
  match findVertices (stripBlockComments (stripLineComments content)) with
  | none => Except.error ("Could not find vertices section in blockMeshDict")
  | some span =>
    match findTriplets span with
    | [] => Except.error ("Could not parse vertex coordinates")
    | c :: cs => Except.ok (c :: cs)

/-- Computable floor of a rational, used so that kernel reduction (and
hence `decide`) works on concrete grouping computations. -/
def qfloor (q : ℚ) : ℤ := Int.fdiv q.num q.den

/-- Round half to even on rationals, the rounding rule of `np.round`. -/
def rne (q : ℚ) : ℤ :=
  if q - qfloor q < 1 / 2 then qfloor q
  else if 1 / 2 < q - qfloor q then qfloor q + 1
  else if qfloor q % 2 = 0 then qfloor q else qfloor q + 1

/-- Quantized key of a coordinate (line 77 of the source):
`tuple(np.round(vertices[i] / tolerance) * tolerance)`. -/
def quantKey (ε : ℚ) (c : Coord) : Coord :=
  ((rne (c.1 / ε) : ℚ) * ε, (rne (c.2.1 / ε) : ℚ) * ε, (rne (c.2.2 / ε) : ℚ) * ε)

/-- Insertion into the grouping structure: `vertex_groups[key].append(i)`
on a `defaultdict(list)`, which preserves first-occurrence key order and
appends to the member list of an existing key. -/
def insertIdx (groups : List (Coord × List ℕ)) (k : Coord) (i : ℕ) : List (Coord × List ℕ) :=
  match groups with
  | [] => [(k, [i])]
  | (k2, l) :: rest => if k2 = k then (k2, l ++ [i]) :: rest else (k2, l) :: insertIdx rest k i

/-- Grouping state after processing indices `0, ..., n - 1` of the
coordinate sequence. -/
def groupsUpTo (ε : ℚ) (vs : List Coord) : ℕ → List (Coord × List ℕ)
  | 0 => []
  | n + 1 => insertIdx (groupsUpTo ε vs n) (quantKey ε (vs.getD n (0, 0, 0))) n

/-- The grouping of lines 76 to 78 of the source: every index inserted in
order under its quantized key. -/
def vertexGroups (ε : ℚ) (vs : List Coord) : List (Coord × List ℕ) :=
  groupsUpTo ε vs vs.length

/-- Coordinate at an index of the sequence. -/
def coordAt (vs : List Coord) (i : ℕ) : Coord := vs.getD i (0, 0, 0)

/-- Quantized key of the coordinate at an index. -/
def keyOf (ε : ℚ) (vs : List Coord) (i : ℕ) : Coord := quantKey ε (coordAt vs i)

/-- Label of a group (lines 107 to 129 of the source): the comma-joined
member indices for a group with more than one member, the plain string of
the single index otherwise. -/
def groupLabel (l : List ℕ) : String :=
  if 1 < l.length then String.intercalate (",") (l.map (fun i => toString i))
  else toString (l.headD 0)

/-- Representative coordinate of a group: `vertices[indices[0]]` (lines 89
and 110 of the source). -/
def groupRep (vs : List Coord) (l : List ℕ) : Coord := vs.getD (l.headD 0) (0, 0, 0)

/-- The `duplicates_found` flag (lines 81 to 88 of the source): set iff
some group has more than one member. -/
def duplicatesFound (ε : ℚ) (vs : List Coord) : Bool :=
  (vertexGroups ε vs).any (fun g => decide (1 < g.2.length))

/-- Two indices land in the same vertex group. -/
def sameGroup (ε : ℚ) (vs : List Coord) (i j : ℕ) : Prop :=
  ∃ g ∈ vertexGroups ε vs, i ∈ g.2 ∧ j ∈ g.2

instance (ε : ℚ) (vs : List Coord) (i j : ℕ) : Decidable (sameGroup ε vs i j) :=
  List.decidableBEx _ _

/-- The two coordinates differ by less than `ε` on every axis. -/
def withinTol (ε : ℚ) (a b : Coord) : Prop :=
  |a.1 - b.1| < ε ∧ |a.2.1 - b.2.1| < ε ∧ |a.2.2 - b.2.2| < ε

/-- The two coordinates differ by more than `ε` on at least one axis. -/
def beyondTol (ε : ℚ) (a b : Coord) : Prop :=
  ε < |a.1 - b.1| ∨ ε < |a.2.1 - b.2.1| ∨ ε < |a.2.2 - b.2.2|

instance (ε : ℚ) (a b : Coord) : Decidable (withinTol ε a b) := by
  unfold withinTol; infer_instance

instance (ε : ℚ) (a b : Coord) : Decidable (beyondTol ε a b) := by
  unfold beyondTol; infer_instance

instance : DecidableEq (Except String (List Coord)) := fun a b =>
  match a, b with
  | Except.error x, Except.error y =>
    if h : x = y then isTrue (by rw [h]) else isFalse (by simp [h])
  | Except.error _, Except.ok _ => isFalse (by simp)
  | Except.ok _, Except.error _ => isFalse (by simp)
  | Except.ok x, Except.ok y =>
    if h : x = y then isTrue (by rw [h]) else isFalse (by simp [h])

/-- Comment-scanner mode for the specification-side comment stripper. -/
inductive CMode
  | norm
  | line
  | block

/-- Single-pass comment stripper following the specification's words: a
`//` sequence inside a block comment does not start a line comment and a
`/*` inside a line comment does not start a block comment.  This is the
reference against which the program's two-pass removal is compared. -/
def specStripAux : CMode → List Char → List Char
  | CMode.norm, [] => []
  | CMode.norm, [c] => [c]
  | CMode.norm, c :: c2 :: cs2 =>
    if c = '/' ∧ c2 = '/' then specStripAux CMode.line cs2
    else if c = '/' ∧ c2 = '*' then specStripAux CMode.block cs2
    else c :: specStripAux CMode.norm (c2 :: cs2)
  | CMode.line, [] => []
  | CMode.line, c :: cs => if c = '\n' then '\n' :: specStripAux CMode.norm cs else specStripAux CMode.line cs
  | CMode.block, [] => []
  | CMode.block, [_] => []
  | CMode.block, c :: c2 :: cs2 =>
    if c = '*' ∧ c2 = '/' then specStripAux CMode.norm cs2
    else specStripAux CMode.block (c2 :: cs2)

/-- Proper C-style comment removal, following the specification's words. -/
def specStripComments (s : List Char) : List Char := specStripAux CMode.norm s

/-- The coordinate `c` appears as a triplet match somewhere in the text:
used to express that a coordinate is recoverable from properly
comment-stripped text. -/
def appearsTriplet (s : List Char) (c : Coord) : Bool :=
  s.tails.any (fun v =>
    match tripletAt v with
    | some p => decide (p.1 = c)
    | none => false)

/-- A vertices section in the sense of the specification: the keyword
`vertices`, optional whitespace, an opening parenthesis, arbitrary
content, and a closing parenthesis immediately followed by a semicolon. -/
def HasVerticesSection (s : List Char) : Prop :=
  ∃ a w b c, s = a ++ ("vertices").toList ++ w ++ '(' :: (b ++ ')' :: ';' :: c) ∧
    ∀ ch ∈ w, isSpace ch = true

/-- Text of one well-formed triplet built from three digit strings. -/
def renderTriplet (t : List Char × List Char × List Char) : List Char :=
  '(' :: (t.1 ++ ' ' :: (t.2.1 ++ ' ' :: (t.2.2 ++ [')'])))

/-- Concatenation of the texts of a list of well-formed triplets. -/
def renderTriplets (ts : List (List Char × List Char × List Char)) : List Char :=
  (ts.map renderTriplet).flatten

/-- The three digit strings of a rendered triplet are nonempty and consist
of decimal digits only. -/
def WfTriplet (t : List Char × List Char × List Char) : Prop :=
  (t.1 ≠ [] ∧ ∀ c ∈ t.1, isDigit c = true) ∧
  (t.2.1 ≠ [] ∧ ∀ c ∈ t.2.1, isDigit c = true) ∧
  (t.2.2 ≠ [] ∧ ∀ c ∈ t.2.2, isDigit c = true)

instance (t : List Char × List Char × List Char) : Decidable (WfTriplet t) := by
  unfold WfTriplet
  infer_instance

/-- Coordinate value denoted by a rendered triplet. -/
def tripletValue (t : List Char × List Char × List Char) : Coord :=
  ((digitsVal t.1 : ℚ), (digitsVal t.2.1 : ℚ), (digitsVal t.2.2 : ℚ))

/-- Model of `main` (lines 197 to 207 of the source): reading the file and
parsing it happen inside the `try` block, so any failure there is caught
and turned into exit code 1; the viewer runs after the `try` block, so its
failures propagate as uncaught errors.  The file system and the viewer are
abstracted as the `Except`-valued arguments. -/
def mainModel (readFile : Except String (List Char))
    (viewer : List Coord → Except String Unit) : Except String ℕ :=
  match readFile.bind parse_blockmesh_dict with
  | Except.error _ => Except.ok 1
  | Except.ok vs =>
    match viewer vs with
    | Except.error e => Except.error e
    | Except.ok _ => Except.ok 0

/-- A run of characters satisfying `p` followed by a character violating
`p` is exactly what `takeWhile` consumes. -/
theorem takeWhile_append_run {p : Char → Bool} {d : List Char} {c0 : Char} {r : List Char}
    (hd : ∀ c ∈ d, p c = true) (hc : p c0 = false) :
    (d ++ c0 :: r).takeWhile p = d := by
  induction d with
  | nil => simp [List.takeWhile_cons, hc]
  | cons a d ih =>
    have ha : p a = true := hd a (by simp)
    simp only [List.cons_append, List.takeWhile_cons, ha, if_true]
    exact congrArg (a :: ·) (ih (fun c hmem => hd c (by simp [hmem])))

/-- Counterpart of `takeWhile_append_run` for `dropWhile`. -/
theorem dropWhile_append_run {p : Char → Bool} {d : List Char} {c0 : Char} {r : List Char}
    (hd : ∀ c ∈ d, p c = true) (hc : p c0 = false) :
    (d ++ c0 :: r).dropWhile p = c0 :: r := by
  induction d with
  | nil => simp [List.dropWhile_cons, hc]
  | cons a d ih =>
    have ha : p a = true := hd a (by simp)
    simp only [List.cons_append, List.dropWhile_cons, ha, if_true]
    exact ih (fun c hmem => hd c (by simp [hmem]))

/-- Dropping a prefix never lengthens a list. -/
theorem length_dropWhile_le (p : Char → Bool) (l : List Char) :
    (l.dropWhile p).length ≤ l.length := by
  induction l with
  | nil => simp
  | cons a l ih =>
    by_cases h : p a
    · simpa [List.dropWhile_cons, h] using Nat.le_succ_of_le ih
    · simp [List.dropWhile_cons, h]

/-- The rest returned by the exponent parser is no longer than its input. -/
theorem parseExp_length_le {s r : List Char} {e : ℤ} (h : parseExp s = some (e, r)) :
    r.length ≤ s.length := by
  match s with
  | [] => simp [parseExp] at h
  | c :: t =>
    simp only [parseExp] at h
    by_cases hc : (c = 'e' ∨ c = 'E')
    · simp only [hc, if_true] at h
      by_cases hds : (List.takeWhile isDigit
          (match t with
            | [] => ((1 : ℤ), ([] : List Char))
            | c2 :: r2 => if c2 = '+' then (1, r2) else if c2 = '-' then (-1, r2) else (1, c2 :: r2)).2).isEmpty
      · simp [hds] at h
      · simp only [hds, if_false] at h
        have hr : r = (match t with
            | [] => ((1 : ℤ), ([] : List Char))
            | c2 :: r2 => if c2 = '+' then (1, r2) else if c2 = '-' then (-1, r2) else
                (1, c2 :: r2)).2.dropWhile isDigit := by
          have := congrArg (fun o => Option.map Prod.snd o) h
          simpa using this.symm
        subst hr
        match t with
        | [] => simp
        | c2 :: r2 =>
          by_cases h2 : c2 = '+'
          · simp only [h2, if_true]
            exact le_trans (length_dropWhile_le _ _) (by simp [Nat.le_succ_of_le, Nat.le_succ])
          · by_cases h3 : c2 = '-'
            · simp only [h2, if_false, h3, if_true]
              exact le_trans (length_dropWhile_le _ _) (by simp [Nat.le_succ_of_le, Nat.le_succ])
            · simp only [h2, if_false, h3]
              exact le_trans (length_dropWhile_le _ _) (by simp)
    · simp [hc] at h

/-- The sign parser consumes at most one character. -/
theorem parseSign_length_le (s : List Char) : (parseSign s).2.length ≤ s.length := by
  match s with
  | [] => simp [parseSign]
  | c :: t =>
    simp only [parseSign]
    by_cases h1 : c = '+'
    · simp [h1, Nat.le_succ]
    · by_cases h2 : c = '-' <;> simp [h1, h2, Nat.le_succ]

/-- The rest returned by the number parser is no longer than its input. -/
theorem longestNum_length_le {s r : List Char} {x : ℚ} (h : longestNum s = some (x, r)) :
    r.length ≤ s.length := by
  have hsg : (parseSign s).2.length ≤ s.length := parseSign_length_le s
  have hr1 : ((parseSign s).2.dropWhile isDigit).length ≤ (parseSign s).2.length :=
    length_dropWhile_le isDigit (parseSign s).2
  simp only [longestNum] at h
  rcases hd : (parseSign s).2.dropWhile isDigit with _ | ⟨c, r2⟩ <;> rw [hd] at h hr1 <;>
    simp only at h
  · split_ifs at h
    simp only [Option.some.injEq, Prod.mk.injEq] at h
    rw [← h.2]
    simp
  · by_cases hc : c = '.'
    · rw [if_pos hc] at h
      by_cases h2 : (r2.takeWhile isDigit).isEmpty = true
      · rw [if_pos h2] at h
        split_ifs at h
        simp only [Option.some.injEq, Prod.mk.injEq] at h
        rw [← h.2]
        exact le_trans hr1 hsg
      · rw [if_neg h2] at h
        have hr2 : (r2.dropWhile isDigit).length ≤ r2.length := length_dropWhile_le _ _
        rcases hpe : parseExp (r2.dropWhile isDigit) with _ | ⟨e, rr⟩ <;> rw [hpe] at h <;>
          simp only [Option.some.injEq, Prod.mk.injEq] at h <;> rw [← h.2]
        · calc (r2.dropWhile isDigit).length ≤ r2.length := hr2
            _ ≤ (c :: r2).length := by simp [Nat.le_succ]
            _ ≤ s.length := le_trans hr1 hsg
        · calc rr.length ≤ (r2.dropWhile isDigit).length := parseExp_length_le hpe
            _ ≤ r2.length := hr2
            _ ≤ (c :: r2).length := by simp [Nat.le_succ]
            _ ≤ s.length := le_trans hr1 hsg
    · rw [if_neg hc] at h
      split_ifs at h
      rcases hpe : parseExp (c :: r2) with _ | ⟨e, rr⟩ <;> rw [hpe] at h <;>
        simp only [Option.some.injEq, Prod.mk.injEq] at h <;> rw [← h.2]
      · exact le_trans hr1 hsg
      · exact le_trans (parseExp_length_le hpe) (le_trans hr1 hsg)

/-- A successful triplet match strictly shortens the input. -/
theorem tripletAt_length_lt {s rest : List Char} {c : Coord}
    (h : tripletAt s = some (c, rest)) : rest.length < s.length := by
  match s with
  | [] => simp [tripletAt] at h
  | c0 :: r =>
    simp only [tripletAt] at h
    split_ifs at h
    rcases h1 : longestNum (r.dropWhile isSpace) with _ | ⟨x, r2⟩ <;> rw [h1] at h <;>
      simp only at h
    · simp at h
    · have hl2 : r2.length ≤ r.length :=
        le_trans (longestNum_length_le h1) (length_dropWhile_le _ _)
      rcases r2 with _ | ⟨c2, r3⟩
      · simp at h
      · simp only at h
        split_ifs at h
        rcases h2 : longestNum (r3.dropWhile isSpace) with _ | ⟨y, r4⟩ <;> rw [h2] at h <;>
          simp only at h
        · simp at h
        · have hl4 : r4.length ≤ r3.length :=
            le_trans (longestNum_length_le h2) (length_dropWhile_le _ _)
          rcases r4 with _ | ⟨c3, r5⟩
          · simp at h
          · simp only at h
            split_ifs at h
            rcases h3 : longestNum (r5.dropWhile isSpace) with _ | ⟨z, r6⟩ <;> rw [h3] at h <;>
              simp only at h
            · simp at h
            · have hl6 : r6.length ≤ r5.length :=
                le_trans (longestNum_length_le h3) (length_dropWhile_le _ _)
              rcases h4 : r6.dropWhile isSpace with _ | ⟨c4, rr⟩ <;> rw [h4] at h <;>
                simp only at h
              · simp at h
              · split_ifs at h
                simp only [Option.some.injEq, Prod.mk.injEq] at h
                rw [← h.2]
                have h5 : (c4 :: rr).length ≤ r6.length := by
                  rw [← h4]; exact length_dropWhile_le _ _
                simp only [List.length_cons] at *
                omega

/-- The scan of triplets does not depend on the fuel, provided the fuel
covers the length of the input. -/
theorem findTripletsF_fuel : ∀ (f g : ℕ) (s : List Char), s.length ≤ f → s.length ≤ g →
    findTripletsF f s = findTripletsF g s := by
  intro f
  induction f with
  | zero =>
    intro g s hf _
    have : s = [] := List.eq_nil_of_length_eq_zero (Nat.le_zero.mp hf)
    subst this
    cases g with
    | zero => rfl
    | succ g => simp [findTripletsF, tripletAt]
  | succ f ih =>
    intro g s hf hg
    cases g with
    | zero =>
      have : s = [] := List.eq_nil_of_length_eq_zero (Nat.le_zero.mp hg)
      subst this
      simp [findTripletsF, tripletAt]
    | succ g =>
      simp only [findTripletsF]
      rcases h : tripletAt s with _ | ⟨c, rest⟩
      · rcases s with _ | ⟨a, t⟩
        · rfl
        · simp only [List.length_cons] at hf hg
          exact ih g t (by omega) (by omega)
      · have hlt := tripletAt_length_lt h
        exact congrArg (c :: ·) (ih g rest (by omega) (by omega))

/-- Unfolding equation of the triplet scan at a successful match. -/
theorem findTriplets_cons {s rest : List Char} {c : Coord}
    (h : tripletAt s = some (c, rest)) : findTriplets s = c :: findTriplets rest := by
  have hlt := tripletAt_length_lt h
  rcases s with _ | ⟨a, t⟩
  · simp [tripletAt] at h
  · show findTripletsF (t.length + 1) (a :: t) = _
    simp only [findTripletsF, h]
    exact congrArg (c :: ·) (findTripletsF_fuel t.length rest.length rest
      (by simp only [List.length_cons] at hlt; omega) le_rfl)

/-- Unfolding equation of the triplet scan at a failed match. -/
theorem findTriplets_skip {a : Char} {t : List Char}
    (h : tripletAt (a :: t) = none) : findTriplets (a :: t) = findTriplets t := by
  show findTripletsF (t.length + 1) (a :: t) = _
  simp only [findTripletsF, h]
  rfl

/-- The scan of the empty text finds nothing. -/
theorem findTriplets_nil : findTriplets [] = [] := rfl

/-- The search for the vertices pattern returns the first successful
anchored match over the suffixes of the input, in left-to-right order. -/
theorem findVertices_eq_tails (s : List Char) :
    findVertices s = (s.tails.filterMap matchVerticesAt).head? := by
  induction s with
  | nil =>
    have h0 : matchVerticesAt [] = none := rfl
    simp [findVertices, h0, List.tails, List.filterMap]
  | cons a t ih =>
    simp only [findVertices, List.tails_cons, List.filterMap_cons]
    rcases hm : matchVerticesAt (a :: t) with _ | sp
    · exact ih
    · simp

/-- A successful lazy capture decomposes the input around the first
close-parenthesis-semicolon pair. -/
theorem takeUpToCloseSemi_some {v t : List Char} (h : takeUpToCloseSemi v = some t) :
    ∃ u, v = t ++ ')' :: ';' :: u := by
  induction v generalizing t with
  | nil => simp [takeUpToCloseSemi] at h
  | cons c cs ih =>
    simp only [takeUpToCloseSemi] at h
    by_cases hc : c = ')'
    · rw [if_pos hc] at h
      rcases cs with _ | ⟨c2, cs2⟩
      · simp at h
      · simp only at h
        by_cases h2 : c2 = ';'
        · rw [if_pos h2] at h
          simp only [Option.some.injEq] at h
          refine ⟨cs2, ?_⟩
          rw [← h, hc, h2]
          rfl
        · rw [if_neg h2] at h
          rcases ho : takeUpToCloseSemi (c2 :: cs2) with _ | t2 <;> rw [ho] at h
          · exact Option.noConfusion h
          · simp only [Option.map_some', Option.some.injEq] at h
            obtain ⟨u, hu⟩ := ih ho
            exact ⟨u, by rw [← h, hu, List.cons_append]⟩
    · rw [if_neg hc] at h
      rcases ho : takeUpToCloseSemi cs with _ | t2 <;> rw [ho] at h
      · exact Option.noConfusion h
      · simp only [Option.map_some', Option.some.injEq] at h
        obtain ⟨u, hu⟩ := ih ho
        exact ⟨u, by rw [← h, hu, List.cons_append]⟩

/-- The lazy capture succeeds whenever a close-parenthesis-semicolon pair
occurs in the input. -/
theorem takeUpToCloseSemi_isSome (b c' : List Char) :
    (takeUpToCloseSemi (b ++ ')' :: ';' :: c')).isSome = true := by
  induction b with
  | nil => simp [takeUpToCloseSemi]
  | cons x b' ih =>
    simp only [List.cons_append, takeUpToCloseSemi]
    by_cases hx : x = ')'
    · rw [if_pos hx]
      rcases b' with _ | ⟨y, b''⟩
      · rfl
      · simp only [List.append_eq, List.cons_append]
        by_cases hy : y = ';'
        · rw [if_pos hy]; rfl
        · rw [if_neg hy]
          simpa using ih
    · rw [if_neg hx]
      simpa using ih

/-- A successful anchored match of the vertices pattern decomposes the
input into the keyword, a whitespace run, the opening parenthesis, the
captured span, and the closing pair. -/
theorem matchVerticesAt_some {s sp : List Char} (h : matchVerticesAt s = some sp) :
    ∃ w u, s = ("vertices").toList ++ w ++ '(' :: (sp ++ ')' :: ';' :: u) ∧
      ∀ ch ∈ w, isSpace ch = true := by
  simp only [matchVerticesAt] at h
  by_cases hp : (("vertices").toList).isPrefixOf s
  · rw [if_pos hp] at h
    obtain ⟨rest, hrest⟩ := (List.isPrefixOf_iff_prefix.mp hp)
    have hdrop : s.drop 8 = rest := by
      rw [← hrest]
      exact List.drop_left ("vertices").toList rest
    rw [hdrop] at h
    rcases hd : rest.dropWhile isSpace with _ | ⟨c, rest2⟩ <;> rw [hd] at h <;> simp only at h
    · exact absurd h (by simp)
    · by_cases hcp : c = '('
      · rw [if_pos hcp] at h
        obtain ⟨u, hu⟩ := takeUpToCloseSemi_some h
        refine ⟨rest.takeWhile isSpace, u, ?_, fun ch hm => List.mem_takeWhile_imp hm⟩
        rw [← hrest, List.append_assoc]
        have : rest = rest.takeWhile isSpace ++ rest.dropWhile isSpace :=
          (List.takeWhile_append_dropWhile isSpace rest).symm
        rw [hcp] at hd
        rw [hu] at hd
        conv_lhs => rw [this, hd]
      · rw [if_neg hcp] at h
        exact absurd h (by simp)
  · rw [if_neg hp] at h
    exact absurd h (by simp)

/-- The anchored match succeeds on any input of the decomposed shape. -/
theorem matchVerticesAt_isSome (w b c' : List Char) (hw : ∀ ch ∈ w, isSpace ch = true) :
    (matchVerticesAt (("vertices").toList ++ w ++ '(' :: (b ++ ')' :: ';' :: c'))).isSome
      = true := by
  simp only [matchVerticesAt]
  have hp : (("vertices").toList).isPrefixOf
      (("vertices").toList ++ w ++ '(' :: (b ++ ')' :: ';' :: c')) = true := by
    rw [List.isPrefixOf_iff_prefix, List.append_assoc]
    exact List.prefix_append _ _
  rw [if_pos hp]
  have hdrop : ((("vertices").toList ++ w ++ '(' :: (b ++ ')' :: ';' :: c')).drop 8)
      = w ++ '(' :: (b ++ ')' :: ';' :: c') := by
    rw [List.append_assoc]
    exact List.drop_left ("vertices").toList _
  rw [hdrop]
  have hdw : (w ++ '(' :: (b ++ ')' :: ';' :: c')).dropWhile isSpace
      = '(' :: (b ++ ')' :: ';' :: c') := dropWhile_append_run hw (by decide)
  rw [hdw]
  simp only [if_pos rfl]
  exact takeUpToCloseSemi_isSome b c'

/-- The leftmost search succeeds whenever some suffix matches. -/
theorem findVertices_isSome_of_suffix : ∀ (a rest : List Char),
    (matchVerticesAt rest).isSome = true → (findVertices (a ++ rest)).isSome = true := by
  intro a
  induction a with
  | nil =>
    intro rest h
    rcases hm : matchVerticesAt rest with _ | sp
    · rw [hm] at h; simp at h
    · rcases rest with _ | ⟨y, u⟩
      · rw [show matchVerticesAt [] = none from rfl] at hm
        exact Option.noConfusion hm
      · simp only [List.nil_append, findVertices, hm]
        rfl
  | cons x a' ih =>
    intro rest h
    simp only [List.cons_append, findVertices]
    rcases hm : matchVerticesAt (x :: (a' ++ rest)) with _ | sp
    · exact ih rest h
    · rfl

/-- A successful leftmost search witnesses a vertices section. -/
theorem findVertices_some_has {s sp : List Char} (h : findVertices s = some sp) :
    HasVerticesSection s := by
  induction s with
  | nil =>
    have h0 : findVertices [] = none := rfl
    rw [h0] at h
    exact Option.noConfusion h
  | cons x t ih =>
    simp only [findVertices] at h
    rcases hm : matchVerticesAt (x :: t) with _ | sp2 <;> rw [hm] at h
    · obtain ⟨a, w, b, c', hdec, hws⟩ := ih h
      exact ⟨x :: a, w, b, c', by simp [hdec, List.append_assoc], hws⟩
    · simp only [Option.some.injEq] at h
      obtain ⟨w, u, hdec, hws⟩ := matchVerticesAt_some hm
      exact ⟨[], w, sp, u, by rw [List.nil_append, hdec, ← h], hws⟩

/-- A vertices section guarantees a successful leftmost search. -/
theorem findVertices_isSome_of_has {s : List Char} (h : HasVerticesSection s) :
    (findVertices s).isSome = true := by
  obtain ⟨a, w, b, c', hdec, hws⟩ := h
  rw [hdec, List.append_assoc, List.append_assoc]
  rw [← List.append_assoc ("vertices").toList w ('(' :: (b ++ ')' :: ';' :: c'))]
  exact findVertices_isSome_of_suffix a _ (matchVerticesAt_isSome w b c' hws)

/-- A digit character is distinct from any character that is not a digit. -/
theorem digit_ne {c d : Char} (h : isDigit c = true) (hd : isDigit d = false) : c ≠ d := by
  intro he
  subst he
  rw [h] at hd
  cases hd

/-- A digit character is not whitespace. -/
theorem isSpace_of_isDigit {c : Char} (h : isDigit c = true) : isSpace c = false := by
  by_contra hs
  rw [Bool.not_eq_false] at hs
  simp only [isSpace, Bool.or_eq_true, decide_eq_true_eq] at hs
  rcases hs with h1 | h1 | h1 | h1 | h1 | h1 <;> subst h1 <;> exact absurd h (by decide)

/-- Line-comment removal is the identity on slash-free text. -/
theorem stripLineAux_id {s : List Char} (h : ∀ c ∈ s, c ≠ '/') : stripLineAux false s = s := by
  induction s with
  | nil => rfl
  | cons c t ih =>
    rcases t with _ | ⟨c2, cs2⟩
    · rfl
    · have hc : c ≠ '/' := h c (by simp)
      have hcond : ¬(c = '/' ∧ c2 = '/') := fun hh => hc hh.1
      simp only [stripLineAux, if_neg hcond]
      exact congrArg (c :: ·) (ih (fun x hx => h x (by simp [hx])))

/-- Block-comment removal is the identity on slash-free text. -/
theorem stripBlockAux_id {s : List Char} (h : ∀ c ∈ s, c ≠ '/') : stripBlockAux none s = s := by
  induction s with
  | nil => rfl
  | cons c t ih =>
    rcases t with _ | ⟨c2, cs2⟩
    · rfl
    · have hc : c ≠ '/' := h c (by simp)
      have hcond : ¬(c = '/' ∧ c2 = '*') := fun hh => hc hh.1
      simp only [stripBlockAux, if_neg hcond]
      exact congrArg (c :: ·) (ih (fun x hx => h x (by simp [hx])))

/-- The lazy capture on a span free of semicolons stops exactly at the
appended close-parenthesis-semicolon pair. -/
theorem takeUpToCloseSemi_clean (v w : List Char) (hv : ∀ c ∈ v, c ≠ ';') :
    takeUpToCloseSemi (v ++ ')' :: ';' :: w) = some v := by
  induction v with
  | nil => rfl
  | cons x v' ih =>
    have ih' := ih (fun c hc => hv c (by simp [hc]))
    simp only [List.cons_append, takeUpToCloseSemi, List.append_eq]
    by_cases hx : x = ')'
    · rw [if_pos hx]
      rcases v' with _ | ⟨y, v''⟩
      · simp only [List.append_eq, List.nil_append]
        rw [if_neg (by decide : ¬(')' : Char) = ';')]
        rw [List.nil_append] at ih'
        rw [ih']
        rfl
      · simp only [List.append_eq, List.cons_append]
        have hy : ¬ y = ';' := hv y (by simp)
        rw [if_neg hy]
        rw [List.cons_append] at ih'
        rw [ih']
        rfl
    · rw [if_neg hx]
      rw [ih']
      rfl

/-- The number parser on a nonempty digit run followed by a terminator
that can continue neither the mantissa nor an exponent returns the value
of the run and stops at the terminator. -/
theorem longestNum_digits {d : List Char} {c0 : Char} {r : List Char}
    (hd : d ≠ []) (hdig : ∀ c ∈ d, isDigit c = true)
    (hc0 : isDigit c0 = false) (hdot : c0 ≠ '.') (he : c0 ≠ 'e') (hE : c0 ≠ 'E') :
    longestNum (d ++ c0 :: r) = some ((digitsVal d : ℚ), c0 :: r) := by
  rcases d with _ | ⟨a, d'⟩
  · exact absurd rfl hd
  have ha : isDigit a = true := hdig a (by simp)
  have hsg : parseSign ((a :: d') ++ c0 :: r) = (1, (a :: d') ++ c0 :: r) := by
    simp only [List.cons_append, parseSign]
    rw [if_neg (digit_ne ha (by decide)), if_neg (digit_ne ha (by decide))]
  have htk : ((a :: d') ++ c0 :: r).takeWhile isDigit = a :: d' :=
    takeWhile_append_run hdig hc0
  have hdr : ((a :: d') ++ c0 :: r).dropWhile isDigit = c0 :: r :=
    dropWhile_append_run hdig hc0
  simp only [longestNum, hsg, htk, hdr]
  rw [if_neg hdot]
  have hne : (a :: d').isEmpty = false := rfl
  rw [hne]
  have hpe : parseExp (c0 :: r) = none := by
    simp only [parseExp]
    rw [if_neg]
    intro hor
    rcases hor with h1 | h1
    · exact he h1
    · exact hE h1
  rw [hpe]
  simp only [if_false, one_mul]
  rfl

/-- `dropWhile isSpace` does not move past a leading digit. -/
theorem dropWhile_isSpace_digits {d : List Char} {r : List Char}
    (hd : d ≠ []) (hdig : ∀ c ∈ d, isDigit c = true) :
    (d ++ r).dropWhile isSpace = d ++ r := by
  rcases d with _ | ⟨a, d'⟩
  · exact absurd rfl hd
  · simp only [List.cons_append, List.dropWhile_cons,
      isSpace_of_isDigit (hdig a (by simp))]
    rfl

/-- The triplet pattern matches the rendered text of a well-formed triplet
and resumes exactly after its closing parenthesis. -/
theorem tripletAt_render (t : List Char × List Char × List Char) (h : WfTriplet t)
    (r : List Char) :
    tripletAt (renderTriplet t ++ r) = some (tripletValue t, r) := by
  obtain ⟨⟨h1ne, h1d⟩, ⟨h2ne, h2d⟩, ⟨h3ne, h3d⟩⟩ := h
  have hshape : renderTriplet t ++ r
      = '(' :: (t.1 ++ ' ' :: (t.2.1 ++ ' ' :: (t.2.2 ++ ')' :: r))) := by
    simp [renderTriplet, List.append_assoc]
  rw [hshape]
  simp only [tripletAt, if_pos rfl]
  rw [dropWhile_isSpace_digits h1ne h1d]
  rw [longestNum_digits h1ne h1d (by decide) (by decide) (by decide) (by decide)]
  simp only
  rw [if_pos (by decide : isSpace ' ' = true)]
  rw [dropWhile_isSpace_digits h2ne h2d]
  rw [longestNum_digits h2ne h2d (by decide) (by decide) (by decide) (by decide)]
  simp only
  rw [if_pos (by decide : isSpace ' ' = true)]
  rw [dropWhile_isSpace_digits h3ne h3d]
  rw [longestNum_digits h3ne h3d (by decide) (by decide) (by decide) (by decide)]
  simp only
  rw [show (')' :: r).dropWhile isSpace = ')' :: r by
    simp [List.dropWhile_cons, (by decide : isSpace ')' = false)]]
  simp [tripletValue]

/-- The scan of a concatenation of rendered well-formed triplets returns
exactly their values, in order. -/
theorem findTriplets_render (ts : List (List Char × List Char × List Char))
    (h : ∀ t ∈ ts, WfTriplet t) :
    findTriplets (renderTriplets ts) = ts.map tripletValue := by
  induction ts with
  | nil => rfl
  | cons t ts' ih =>
    have hr : renderTriplets (t :: ts') = renderTriplet t ++ renderTriplets ts' := by
      simp [renderTriplets]
    rw [hr]
    rw [findTriplets_cons (tripletAt_render t (h t (by simp)) (renderTriplets ts'))]
    rw [ih (fun x hx => h x (by simp [hx]))]
    rfl

/-- Characters of rendered triplets: parentheses, spaces and digits only. -/
theorem mem_renderTriplets {ts : List (List Char × List Char × List Char)}
    (h : ∀ t ∈ ts, WfTriplet t) {c : Char} (hc : c ∈ renderTriplets ts) :
    c = '(' ∨ c = ')' ∨ c = ' ' ∨ isDigit c = true := by
  simp only [renderTriplets, List.mem_flatten, List.mem_map] at hc
  obtain ⟨l, ⟨t, ht, hl⟩, hcl⟩ := hc
  obtain ⟨⟨_, h1d⟩, ⟨_, h2d⟩, ⟨_, h3d⟩⟩ := h t ht
  rw [← hl] at hcl
  simp only [renderTriplet, List.mem_cons, List.mem_append] at hcl
  rcases hcl with h0 | hrest
  · exact Or.inl h0
  rcases hrest with h1 | hrest
  · exact Or.inr (Or.inr (Or.inr (h1d c h1)))
  rcases hrest with h1 | hrest
  · exact Or.inr (Or.inr (Or.inl h1))
  rcases hrest with h1 | hrest
  · exact Or.inr (Or.inr (Or.inr (h2d c h1)))
  rcases hrest with h1 | hrest
  · exact Or.inr (Or.inr (Or.inl h1))
  rcases hrest with h1 | hrest
  · exact Or.inr (Or.inr (Or.inr (h3d c h1)))
  · rcases hrest with h1 | h1
    · exact Or.inr (Or.inl h1)
    · exact absurd h1 (List.not_mem_nil c)

/-- The search function returns the anchored match when one exists at the
very front of a nonempty input. -/
theorem findVertices_of_match {s sp : List Char} (hs : s ≠ [])
    (h : matchVerticesAt s = some sp) : findVertices s = some sp := by
  rcases s with _ | ⟨a, t⟩
  · exact absurd rfl hs
  · simp only [findVertices, h]

/-- The anchored vertices match on a rendered input captures exactly the
rendered span. -/
theorem matchVerticesAt_render (v : List Char) (hv : ∀ c ∈ v, c ≠ ';') :
    matchVerticesAt (("vertices").toList ++ ' ' :: '(' :: (v ++ ')' :: ';' :: []))
      = some v := by
  simp only [matchVerticesAt]
  have hp : (("vertices").toList).isPrefixOf
      (("vertices").toList ++ ' ' :: '(' :: (v ++ ')' :: ';' :: [])) = true := by
    rw [List.isPrefixOf_iff_prefix]
    exact List.prefix_append _ _
  rw [if_pos hp]
  have hdrop : ((("vertices").toList ++ ' ' :: '(' :: (v ++ ')' :: ';' :: [])).drop 8)
      = ' ' :: '(' :: (v ++ ')' :: ';' :: []) :=
    List.drop_left ("vertices").toList _
  rw [hdrop]
  rw [show (' ' :: '(' :: (v ++ ')' :: ';' :: [])).dropWhile isSpace
      = '(' :: (v ++ ')' :: ';' :: []) by
    simp [List.dropWhile_cons, (by decide : isSpace ' ' = true),
      (by decide : isSpace '(' = false)]]
  simp only [if_pos rfl]
  exact takeUpToCloseSemi_clean v [] hv

/-- Full pipeline on a rendered input: comment stripping is the identity,
the section is isolated, and exactly the rendered triplets come back. -/
theorem parse_render (ts : List (List Char × List Char × List Char))
    (h : ∀ t ∈ ts, WfTriplet t) (hne : ts ≠ []) :
    parse_blockmesh_dict (("vertices (").toList ++ renderTriplets ts ++ (");").toList)
      = Except.ok (ts.map tripletValue) := by
  have hshape : ("vertices (").toList ++ renderTriplets ts ++ (");").toList
      = ("vertices").toList ++ ' ' :: '(' :: (renderTriplets ts ++ ')' :: ';' :: []) := by
    rw [show ("vertices (").toList = ("vertices").toList ++ [' ', '('] from rfl]
    simp [List.append_assoc]
  rw [hshape]
  have hnosl : ∀ c ∈ ("vertices").toList ++ ' ' :: '('
      :: (renderTriplets ts ++ ')' :: ';' :: []), c ≠ '/' := by
    intro c hc
    have hkw : ∀ x ∈ ("vertices").toList, x ≠ '/' := by decide
    simp only [List.mem_append, List.mem_cons, List.not_mem_nil, or_false,
      or_assoc] at hc
    rcases hc with h1 | h1 | h1 | h1 | h1 | h1
    · exact hkw c h1
    · subst h1; decide
    · subst h1; decide
    · rcases mem_renderTriplets h h1 with h3 | h3 | h3 | h3
      · subst h3; decide
      · subst h3; decide
      · subst h3; decide
      · exact digit_ne h3 (by decide)
    · subst h1; decide
    · subst h1; decide
  have hnosemi : ∀ c ∈ renderTriplets ts, c ≠ ';' := by
    intro c hc
    rcases mem_renderTriplets h hc with h3 | h3 | h3 | h3
    · subst h3; decide
    · subst h3; decide
    · subst h3; decide
    · exact digit_ne h3 (by decide)
  have hstrip : stripBlockComments (stripLineComments (("vertices").toList ++ ' ' :: '('
      :: (renderTriplets ts ++ ')' :: ';' :: [])))
      = ("vertices").toList ++ ' ' :: '(' :: (renderTriplets ts ++ ')' :: ';' :: []) := by
    rw [show stripLineComments (("vertices").toList ++ ' ' :: '('
        :: (renderTriplets ts ++ ')' :: ';' :: []))
      = ("vertices").toList ++ ' ' :: '(' :: (renderTriplets ts ++ ')' :: ';' :: [])
      from stripLineAux_id hnosl]
    exact stripBlockAux_id hnosl
  have hfv : findVertices (("vertices").toList ++ ' ' :: '('
      :: (renderTriplets ts ++ ')' :: ';' :: [])) = some (renderTriplets ts) :=
    findVertices_of_match (by simp) (matchVerticesAt_render (renderTriplets ts) hnosemi)
  simp only [parse_blockmesh_dict, hstrip, hfv]
  rw [findTriplets_render ts h]
  rcases hts : ts with _ | ⟨t0, ts'⟩
  · exact absurd hts hne
  · simp

/-- The computable floor agrees with the mathematical floor. -/
theorem qfloor_eq_floor (q : ℚ) : qfloor q = ⌊q⌋ := by
  rw [Rat.floor_def]
  unfold qfloor
  exact Int.fdiv_eq_ediv q.num (by exact_mod_cast Nat.zero_le q.den)

/-- Round half to even lands within half a unit of its argument. -/
theorem rne_abs_le (q : ℚ) : |q - (rne q : ℚ)| ≤ 1 / 2 := by
  unfold rne
  rw [qfloor_eq_floor]
  have h1 : ((⌊q⌋ : ℚ)) ≤ q := Int.floor_le q
  have h2 : q < (⌊q⌋ : ℚ) + 1 := Int.lt_floor_add_one q
  split_ifs with ha hb hc
  · rw [abs_le]
    constructor <;> linarith
  · rw [abs_le]
    push_cast
    constructor <;> linarith
  · rw [abs_le]
    have : q - (⌊q⌋ : ℚ) = 1 / 2 := le_antisymm (not_lt.mp hb) (not_lt.mp ha)
    constructor <;> linarith
  · rw [abs_le]
    have : q - (⌊q⌋ : ℚ) = 1 / 2 := le_antisymm (not_lt.mp hb) (not_lt.mp ha)
    push_cast
    constructor <;> linarith

/-- Two values further than `ε` apart round to different multiples. -/
theorem rne_ne_of_far {x y ε : ℚ} (hε : 0 < ε) (hf : ε < |x - y|) :
    rne (x / ε) ≠ rne (y / ε) := by
  intro he
  have h1 := rne_abs_le (x / ε)
  have h2 := rne_abs_le (y / ε)
  rw [he] at h1
  have h3 : |x / ε - y / ε| ≤ 1 := by
    calc |x / ε - y / ε|
        ≤ |x / ε - (rne (y / ε) : ℚ)| + |(rne (y / ε) : ℚ) - y / ε| :=
          abs_sub_le (x / ε) ((rne (y / ε) : ℚ)) (y / ε)
      _ = |x / ε - (rne (y / ε) : ℚ)| + |y / ε - (rne (y / ε) : ℚ)| := by
          rw [abs_sub_comm ((rne (y / ε) : ℚ)) (y / ε)]
      _ ≤ 1 / 2 + 1 / 2 := add_le_add h1 h2
      _ = 1 := by norm_num
  have h4 : |x - y| ≤ ε := by
    have hxy : x - y = (x / ε - y / ε) * ε := by field_simp
    rw [hxy, abs_mul, abs_of_pos hε]
    calc |x / ε - y / ε| * ε ≤ 1 * ε := mul_le_mul_of_nonneg_right h3 (le_of_lt hε)
      _ = ε := one_mul ε
  linarith

/-- Coordinates further than `ε` apart on some axis have distinct
quantized keys. -/
theorem quantKey_ne_of_beyond {ε : ℚ} (hε : 0 < ε) {a b : Coord} (h : beyondTol ε a b) :
    quantKey ε a ≠ quantKey ε b := by
  intro he
  simp only [quantKey, Prod.mk.injEq] at he
  obtain ⟨h1, h2, h3⟩ := he
  have hne : ε ≠ 0 := ne_of_gt hε
  rcases h with hb | hb | hb
  · exact rne_ne_of_far hε hb (Int.cast_injective (mul_right_cancel₀ hne h1))
  · exact rne_ne_of_far hε hb (Int.cast_injective (mul_right_cancel₀ hne h2))
  · exact rne_ne_of_far hε hb (Int.cast_injective (mul_right_cancel₀ hne h3))

/-- Keys after an insertion: unchanged when the key was present, appended
at the end when it is new. -/
theorem insertIdx_map_fst (G : List (Coord × List ℕ)) (k : Coord) (i : ℕ) :
    (insertIdx G k i).map Prod.fst
      = if k ∈ G.map Prod.fst then G.map Prod.fst else G.map Prod.fst ++ [k] := by
  induction G with
  | nil => simp [insertIdx]
  | cons p G' ih =>
    rcases p with ⟨k2, l⟩
    simp only [insertIdx]
    by_cases hk : k2 = k
    · rw [if_pos hk]
      subst hk
      simp
    · rw [if_neg hk]
      simp only [List.map_cons, ih]
      by_cases hmem : k ∈ G'.map Prod.fst
      · rw [if_pos hmem, if_pos (by simp [hmem])]
      · rw [if_neg hmem, if_neg (by
          simp only [List.mem_cons]
          rintro (h | h)
          · exact hk h.symm
          · exact hmem h), List.cons_append]

/-- Membership after an insertion, assuming the keys are distinct: the
other groups are untouched, and the inserted key either extends its
existing member list or forms a new singleton group. -/
theorem mem_insertIdx {G : List (Coord × List ℕ)} {k : Coord} {i : ℕ} {p : Coord × List ℕ}
    (hnd : (G.map Prod.fst).Nodup) (hp : p ∈ insertIdx G k i) :
    (p.1 ≠ k ∧ p ∈ G) ∨
    (p.1 = k ∧ ((∃ l0, (k, l0) ∈ G ∧ p.2 = l0 ++ [i]) ∨
      (k ∉ G.map Prod.fst ∧ p.2 = [i]))) := by
  induction G with
  | nil =>
    simp only [insertIdx, List.mem_singleton] at hp
    subst hp
    exact Or.inr ⟨rfl, Or.inr ⟨by simp, rfl⟩⟩
  | cons q G' ih =>
    rcases q with ⟨k2, l⟩
    rw [List.map_cons, List.nodup_cons] at hnd
    simp only [insertIdx] at hp
    by_cases hk : k2 = k
    · rw [if_pos hk] at hp
      subst hk
      rcases List.mem_cons.mp hp with h1 | h1
      · subst h1
        exact Or.inr ⟨rfl, Or.inl ⟨l, List.mem_cons_self _ _, rfl⟩⟩
      · by_cases hpk : p.1 = k2
        · refine absurd ?_ hnd.1
          rw [← hpk]
          exact List.mem_map.mpr ⟨p, h1, rfl⟩
        · exact Or.inl ⟨hpk, List.mem_cons_of_mem _ h1⟩
    · rw [if_neg hk] at hp
      rcases List.mem_cons.mp hp with h1 | h1
      · subst h1
        exact Or.inl ⟨hk, List.mem_cons_self _ _⟩
      · rcases ih hnd.2 h1 with h2 | h2
        · exact Or.inl ⟨h2.1, List.mem_cons_of_mem _ h2.2⟩
        · refine Or.inr ⟨h2.1, ?_⟩
          rcases h2.2 with h3 | h3
          · obtain ⟨l0, hl0, hl0eq⟩ := h3
            exact Or.inl ⟨l0, List.mem_cons_of_mem _ hl0, hl0eq⟩
          · refine Or.inr ⟨?_, h3.2⟩
            simp only [List.map_cons, List.mem_cons]
            rintro (hkk | hkk)
            · exact hk hkk.symm
            · exact h3.1 hkk

/-- Invariant of the grouping loop after `n` insertions: each group's
member list is exactly the ascending list of processed indices carrying
its key, keys are pairwise distinct, member lists are nonempty, and every
processed index has its key present. -/
theorem groupsUpTo_spec (ε : ℚ) (vs : List Coord) : ∀ n,
    (∀ p ∈ groupsUpTo ε vs n,
        p.2 = (List.range n).filter (fun i => decide (keyOf ε vs i = p.1)) ∧ p.2 ≠ []) ∧
    ((groupsUpTo ε vs n).map Prod.fst).Nodup ∧
    (∀ i, i < n → keyOf ε vs i ∈ (groupsUpTo ε vs n).map Prod.fst) := by
  intro n
  induction n with
  | zero =>
    refine ⟨by simp [groupsUpTo], by simp [groupsUpTo], ?_⟩
    intro i hi
    exact absurd hi (Nat.not_lt_zero i)
  | succ n ih =>
    obtain ⟨ihchar, ihnd, ihcomp⟩ := ih
    have hstep : groupsUpTo ε vs (n + 1)
        = insertIdx (groupsUpTo ε vs n) (keyOf ε vs n) n := rfl
    have hfst := insertIdx_map_fst (groupsUpTo ε vs n) (keyOf ε vs n) n
    refine ⟨?_, ?_, ?_⟩
    · intro p hp
      rw [hstep] at hp
      rcases mem_insertIdx ihnd hp with ⟨hne, hmem⟩ | ⟨heq, hrest⟩
      · obtain ⟨hchar, hnonnil⟩ := ihchar p hmem
        constructor
        · rw [List.range_succ, List.filter_append, hchar]
          have hdec : decide (keyOf ε vs n = p.1) = false :=
            decide_eq_false (fun hcontra => hne hcontra.symm)
          have : (List.filter (fun i => decide (keyOf ε vs i = p.1)) [n]) = [] := by
            simp only [List.filter, hdec]
          rw [this, List.append_nil]
        · exact hnonnil
      · rcases hrest with ⟨l0, hl0mem, hl0eq⟩ | ⟨hnew, hsing⟩
        · obtain ⟨hchar, _⟩ := ihchar (keyOf ε vs n, l0) hl0mem
          constructor
          · rw [List.range_succ, List.filter_append, hl0eq]
            simp only at hchar
            rw [hchar, heq]
            have : (List.filter (fun i => decide (keyOf ε vs i = keyOf ε vs n)) [n]) = [n] := by
              simp [List.filter]
            rw [this]
          · rw [hl0eq]
            simp
        · constructor
          · rw [List.range_succ, List.filter_append, hsing, heq]
            have h1 : (List.range n).filter
                (fun i => decide (keyOf ε vs i = keyOf ε vs n)) = [] := by
              rw [List.filter_eq_nil_iff]
              intro a ha
              simp only [decide_eq_true_eq]
              intro hcontra
              exact hnew (by rw [← hcontra]; exact ihcomp a (List.mem_range.mp ha))
            have h2 : (List.filter (fun i => decide (keyOf ε vs i = keyOf ε vs n)) [n])
                = [n] := by simp [List.filter]
            rw [h1, h2, List.nil_append]
          · rw [hsing]
            simp
    · rw [hstep, hfst]
      by_cases hmem : keyOf ε vs n ∈ (groupsUpTo ε vs n).map Prod.fst
      · rw [if_pos hmem]
        exact ihnd
      · rw [if_neg hmem]
        refine List.Nodup.append ihnd (by simp) ?_
        intro x hx
        simp only [List.mem_singleton]
        intro hxk
        subst hxk
        exact hmem hx
    · intro i hi
      rw [hstep, hfst]
      rcases Nat.lt_succ_iff_lt_or_eq.mp hi with hlt | heq
      · have := ihcomp i hlt
        by_cases hmem : keyOf ε vs n ∈ (groupsUpTo ε vs n).map Prod.fst
        · rw [if_pos hmem]; exact this
        · rw [if_neg hmem]; exact List.mem_append_left _ this
      · subst heq
        by_cases hmem : keyOf ε vs i ∈ (groupsUpTo ε vs i).map Prod.fst
        · rw [if_pos hmem]; exact hmem
        · rw [if_neg hmem]; exact List.mem_append_right _ (by simp)

/-- Characterization of a group of the final grouping result. -/
theorem vertexGroups_char {ε : ℚ} {vs : List Coord} {p : Coord × List ℕ}
    (hp : p ∈ vertexGroups ε vs) :
    p.2 = (List.range vs.length).filter (fun i => decide (keyOf ε vs i = p.1)) ∧ p.2 ≠ [] :=
  (groupsUpTo_spec ε vs vs.length).1 p hp

/-- The grouping result carries pairwise distinct keys. -/
theorem vertexGroups_keys_nodup (ε : ℚ) (vs : List Coord) :
    ((vertexGroups ε vs).map Prod.fst).Nodup :=
  (groupsUpTo_spec ε vs vs.length).2.1

/-- Every index of the sequence has its key among the grouping keys. -/
theorem vertexGroups_complete {ε : ℚ} {vs : List Coord} {i : ℕ} (hi : i < vs.length) :
    keyOf ε vs i ∈ (vertexGroups ε vs).map Prod.fst :=
  (groupsUpTo_spec ε vs vs.length).2.2 i hi

/-- Membership of an index in a group of the result. -/
theorem mem_group_iff {ε : ℚ} {vs : List Coord} {p : Coord × List ℕ}
    (hp : p ∈ vertexGroups ε vs) (i : ℕ) :
    i ∈ p.2 ↔ i < vs.length ∧ keyOf ε vs i = p.1 := by
  rw [(vertexGroups_char hp).1, List.mem_filter, List.mem_range, decide_eq_true_eq]

/-- Two indices share a group exactly when their quantized keys agree. -/
theorem sameGroup_iff {ε : ℚ} {vs : List Coord} {i j : ℕ}
    (hi : i < vs.length) (hj : j < vs.length) :
    sameGroup ε vs i j ↔ keyOf ε vs i = keyOf ε vs j := by
  constructor
  · rintro ⟨g, hg, hig, hjg⟩
    have h1 := ((mem_group_iff hg i).mp hig).2
    have h2 := ((mem_group_iff hg j).mp hjg).2
    rw [h1, h2]
  · intro hk
    have hcomp := vertexGroups_complete (ε := ε) hi
    simp only [List.mem_map] at hcomp
    obtain ⟨g, hg, hfst⟩ := hcomp
    exact ⟨g, hg, (mem_group_iff hg i).mpr ⟨hi, hfst.symm⟩,
      (mem_group_iff hg j).mpr ⟨hj, by rw [← hk]; exact hfst.symm⟩⟩

/-- Concatenated member lists of all groups, in group order. -/
def allIndices (G : List (Coord × List ℕ)) : List ℕ := (G.map Prod.snd).flatten

/-- Inserting an index appends it, up to permutation, to the concatenated
member lists. -/
theorem insertIdx_allIndices_perm (G : List (Coord × List ℕ)) (k : Coord) (i : ℕ) :
    (allIndices (insertIdx G k i)).Perm (allIndices G ++ [i]) := by
  induction G with
  | nil => simp [allIndices, insertIdx]
  | cons q G' ih =>
    rcases q with ⟨k2, l⟩
    simp only [insertIdx]
    by_cases hk : k2 = k
    · rw [if_pos hk]
      simp only [allIndices, List.map_cons, List.flatten_cons]
      rw [List.append_assoc l [i] ((List.map Prod.snd G').flatten),
        List.append_assoc l ((List.map Prod.snd G').flatten) [i]]
      exact List.Perm.append_left l List.perm_append_comm
    · rw [if_neg hk]
      simp only [allIndices, List.map_cons, List.flatten_cons]
      rw [List.append_assoc l ((List.map Prod.snd G').flatten) [i]]
      exact List.Perm.append_left l ih

/-- The grouping of the first `n` indices distributes exactly the indices
`0, ..., n - 1` over the groups. -/
theorem groupsUpTo_perm (ε : ℚ) (vs : List Coord) : ∀ n,
    (allIndices (groupsUpTo ε vs n)).Perm (List.range n) := by
  intro n
  induction n with
  | zero => simp [groupsUpTo, allIndices]
  | succ n ih =>
    have hstep : groupsUpTo ε vs (n + 1)
        = insertIdx (groupsUpTo ε vs n) (keyOf ε vs n) n := rfl
    rw [hstep, List.range_succ]
    exact (insertIdx_allIndices_perm (groupsUpTo ε vs n) (keyOf ε vs n) n).trans
      (ih.append_right [n])

/-- The full grouping distributes exactly all indices of the sequence. -/
theorem vertexGroups_perm (ε : ℚ) (vs : List Coord) :
    (allIndices (vertexGroups ε vs)).Perm (List.range vs.length) :=
  groupsUpTo_perm ε vs vs.length

/-- Member lists of the result are sorted strictly ascending. -/
theorem vertexGroups_sorted {ε : ℚ} {vs : List Coord} {p : Coord × List ℕ}
    (hp : p ∈ vertexGroups ε vs) : List.Pairwise (· < ·) p.2 := by
  rw [(vertexGroups_char hp).1]
  exact (List.pairwise_lt_range vs.length).filter _

/-- Parse outcome when no vertices section is found. -/
theorem parse_eq_no_section {t : List Char}
    (h : findVertices (stripBlockComments (stripLineComments t)) = none) :
    parse_blockmesh_dict t
      = Except.error ("Could not find vertices section in blockMeshDict") := by
  simp only [parse_blockmesh_dict, h]

/-- Parse outcome when the span yields no triplet. -/
theorem parse_eq_no_coords {t span : List Char}
    (h : findVertices (stripBlockComments (stripLineComments t)) = some span)
    (h2 : findTriplets span = []) :
    parse_blockmesh_dict t = Except.error ("Could not parse vertex coordinates") := by
  simp only [parse_blockmesh_dict, h, h2]

/-- Parse outcome on a successful extraction. -/
theorem parse_eq_ok {t span : List Char} {c : Coord} {cs : List Coord}
    (h : findVertices (stripBlockComments (stripLineComments t)) = some span)
    (h2 : findTriplets span = c :: cs) :
    parse_blockmesh_dict t = Except.ok (c :: cs) := by
  simp only [parse_blockmesh_dict, h, h2]

/-- Claim C4: the scan fails exactly when the comment-stripped text has no
vertices section (`vertices` keyword, optional whitespace, opening
parenthesis, content, close-parenthesis-semicolon) or when the section
yields zero well-formed triplets; consequently a successful scan returns
at least one coordinate. -/
theorem C4_scan_failure_iff (t : List Char) :
    ((∃ e, parse_blockmesh_dict t = Except.error e) ↔
      (¬ HasVerticesSection (stripBlockComments (stripLineComments t)) ∨
        ∃ span, findVertices (stripBlockComments (stripLineComments t)) = some span ∧
          findTriplets span = [])) ∧
    (∀ cs, parse_blockmesh_dict t = Except.ok cs → 1 ≤ cs.length) := by
  rcases hfv : findVertices (stripBlockComments (stripLineComments t)) with _ | span
  · have hp := parse_eq_no_section hfv
    refine ⟨⟨fun _ => Or.inl ?_, fun _ => ⟨_, hp⟩⟩, ?_⟩
    · intro hhas
      have := findVertices_isSome_of_has hhas
      rw [hfv] at this
      cases this
    · intro cs hcs
      rw [hp] at hcs
      cases hcs
  · have hhas : HasVerticesSection (stripBlockComments (stripLineComments t)) :=
      findVertices_some_has hfv
    rcases hft : findTriplets span with _ | ⟨c, cs⟩
    · have hp := parse_eq_no_coords hfv hft
      refine ⟨⟨fun _ => Or.inr ⟨span, rfl, hft⟩, fun _ => ⟨_, hp⟩⟩, ?_⟩
      intro cs hcs
      rw [hp] at hcs
      cases hcs
    · have hp := parse_eq_ok hfv hft
      refine ⟨⟨?_, ?_⟩, ?_⟩
      · rintro ⟨e, he⟩
        rw [hp] at he
        cases he
      · rintro (hno | ⟨span2, hspan2, hft2⟩)
        · exact absurd hhas hno
        · injection hspan2 with hsp
          rw [← hsp] at hft2
          rw [hft] at hft2
          cases hft2
      · intro cs2 hcs2
        rw [hp] at hcs2
        injection hcs2 with hcs2
        rw [← hcs2]
        simp

/-- Witness for C4 on a concrete file text with one triplet. -/
theorem C4_scan_failure_iff_witness : 1 ≤ ([((1 : ℚ), 2, 3)] : List Coord).length :=
  (C4_scan_failure_iff (("vertices ((1 2 3));").toList)).2 [((1 : ℚ), 2, 3)]
    (by with_unfolding_all decide)

/-- Tolerance and coordinates of the counterexample to claim C1: two
points at x = 0.4e-6 and x = 1.3e-6, which differ by 0.9e-6 < 1e-6 on
every axis yet straddle the rounding boundary at 0.5e-6. -/
def boundaryVs : List Coord := [((1 : ℚ) / 2500000, 0, 0), ((13 : ℚ) / 10000000, 0, 0)]

/-- Claim C1 as stated is false: in `boundaryVs` the two coordinates
differ by less than the tolerance `1e-6` on every axis, yet they are
placed in different vertex groups, because grouping quantizes each axis
independently rather than comparing distances. -/
theorem C1_counterexample :
    ¬ (∀ i j : ℕ, i < boundaryVs.length → j < boundaryVs.length →
      ((withinTol ((1 : ℚ) / 1000000) (coordAt boundaryVs i) (coordAt boundaryVs j) →
          sameGroup ((1 : ℚ) / 1000000) boundaryVs i j) ∧
        (beyondTol ((1 : ℚ) / 1000000) (coordAt boundaryVs i) (coordAt boundaryVs j) →
          ¬ sameGroup ((1 : ℚ) / 1000000) boundaryVs i j))) := by
  intro hcl
  have h := (hcl 0 1 (by decide) (by decide)).1
  exact absurd (h (by with_unfolding_all decide)) (by with_unfolding_all decide)

/-- Claim C1 (amended): two coordinates whose quantized keys agree on
every axis (each axis rounded half-to-even to the nearest multiple of the
tolerance) land in the same vertex group, and two coordinates differing by
more than the tolerance on at least one axis land in different groups. -/
theorem C1_tolerance_grouping (ε : ℚ) (hε : 0 < ε) (vs : List Coord) (i j : ℕ)
    (hi : i < vs.length) (hj : j < vs.length) :
    (quantKey ε (coordAt vs i) = quantKey ε (coordAt vs j) → sameGroup ε vs i j) ∧
    (beyondTol ε (coordAt vs i) (coordAt vs j) → ¬ sameGroup ε vs i j) := by
  constructor
  · intro hk
    exact (sameGroup_iff hi hj).mpr hk
  · intro hb hs
    exact quantKey_ne_of_beyond hε hb ((sameGroup_iff hi hj).mp hs)

/-- Witness for C1 on concrete sequences: coinciding coordinates group
together, and coordinates one unit apart do not. -/
theorem C1_tolerance_grouping_witness :
    sameGroup ((1 : ℚ) / 1000000) [((0 : ℚ), 0, 0), ((0 : ℚ), 0, 0)] 0 1 ∧
    ¬ sameGroup ((1 : ℚ) / 1000000) [((0 : ℚ), 0, 0), ((1 : ℚ), 0, 0)] 0 1 :=
  ⟨(C1_tolerance_grouping ((1 : ℚ) / 1000000) (by norm_num)
      [((0 : ℚ), 0, 0), ((0 : ℚ), 0, 0)] 0 1 (by decide) (by decide)).1 rfl,
   (C1_tolerance_grouping ((1 : ℚ) / 1000000) (by norm_num)
      [((0 : ℚ), 0, 0), ((1 : ℚ), 0, 0)] 0 1 (by decide) (by decide)).2
     (by with_unfolding_all decide)⟩

/-- The failing input for claim C2: the triplet `(9 9 9)` lies entirely
inside the block comment, which itself contains a line-comment marker. -/
def commentTrap : List Char :=
  ("vertices ( (0 0 0) /* (9 9 9) // x */ (1 1 1) );\n);").toList

/-- Claim C2 fails on the code: on `commentTrap`, the program extracts the
comment-interior triplet `(9, 9, 9)` (and misses `(1, 1, 1)`), because the
line-comment substitution runs first and erases the closing marker of the
block comment.  The triplet appears nowhere in the properly
comment-stripped text, only in the raw text inside the comment.  The
specification's own example, with the triplet in a line comment, does hold. -/
theorem C2_comment_immunity_bug :
    parse_blockmesh_dict commentTrap = Except.ok [(0, 0, 0), (9, 9, 9)] ∧
    appearsTriplet (specStripComments commentTrap) (9, 9, 9) = false ∧
    appearsTriplet commentTrap (9, 9, 9) = true ∧
    parse_blockmesh_dict (("vertices ( (0 0 0) // (9 9 9)\n(1 0 0) );").toList)
      = Except.ok [(0, 0, 0), (1, 0, 0)] := by
  refine ⟨?_, ?_, ?_, ?_⟩ <;>
    (set_option maxRecDepth 8000 in with_unfolding_all decide)

/-- Claim C3: for every non-empty coordinate sequence the group member
lists form an exact partition of the index range (their concatenation is a
permutation of `0, ..., N - 1`, each list has no duplicates, and no index
lies in two distinct groups), and re-running the grouping yields identical
groups and identical labels, the grouping being a pure function. -/
theorem C3_partition_idempotent (ε : ℚ) (vs : List Coord) (_hvs : vs ≠ []) :
    (allIndices (vertexGroups ε vs)).Perm (List.range vs.length) ∧
    (∀ p ∈ vertexGroups ε vs, p.2.Nodup) ∧
    (∀ (i : ℕ) (p1 p2 : Coord × List ℕ), p1 ∈ vertexGroups ε vs → p2 ∈ vertexGroups ε vs →
      i ∈ p1.2 → i ∈ p2.2 → p1 = p2) ∧
    vertexGroups ε vs = vertexGroups ε vs ∧
    (vertexGroups ε vs).map (fun p => groupLabel p.2)
      = (vertexGroups ε vs).map (fun p => groupLabel p.2) := by
  refine ⟨vertexGroups_perm ε vs, ?_, ?_, rfl, rfl⟩
  · intro p hp
    rw [(vertexGroups_char hp).1]
    exact (List.nodup_range vs.length).filter _
  · intro i p1 p2 h1 h2 hi1 hi2
    have hfst : p1.1 = p2.1 := by
      rw [← ((mem_group_iff h1 i).mp hi1).2, ((mem_group_iff h2 i).mp hi2).2]
    have hsnd : p1.2 = p2.2 := by
      rw [(vertexGroups_char h1).1, (vertexGroups_char h2).1, hfst]
    exact Prod.ext hfst hsnd

/-- Witness for C3 on a concrete two-point sequence with a duplicate. -/
theorem C3_partition_idempotent_witness :
    (allIndices (vertexGroups ((1 : ℚ) / 1000000)
        [((0 : ℚ), 0, 0), ((0 : ℚ), 0, 0)])).Perm
      (List.range ([((0 : ℚ), 0, 0), ((0 : ℚ), 0, 0)] : List Coord).length) ∧
    (∀ p ∈ vertexGroups ((1 : ℚ) / 1000000) [((0 : ℚ), 0, 0), ((0 : ℚ), 0, 0)], p.2.Nodup) ∧
    (∀ (i : ℕ) (p1 p2 : Coord × List ℕ),
      p1 ∈ vertexGroups ((1 : ℚ) / 1000000) [((0 : ℚ), 0, 0), ((0 : ℚ), 0, 0)] →
      p2 ∈ vertexGroups ((1 : ℚ) / 1000000) [((0 : ℚ), 0, 0), ((0 : ℚ), 0, 0)] →
      i ∈ p1.2 → i ∈ p2.2 → p1 = p2) ∧
    vertexGroups ((1 : ℚ) / 1000000) [((0 : ℚ), 0, 0), ((0 : ℚ), 0, 0)]
      = vertexGroups ((1 : ℚ) / 1000000) [((0 : ℚ), 0, 0), ((0 : ℚ), 0, 0)] ∧
    (vertexGroups ((1 : ℚ) / 1000000) [((0 : ℚ), 0, 0), ((0 : ℚ), 0, 0)]).map
        (fun p => groupLabel p.2)
      = (vertexGroups ((1 : ℚ) / 1000000) [((0 : ℚ), 0, 0), ((0 : ℚ), 0, 0)]).map
        (fun p => groupLabel p.2) :=
  C3_partition_idempotent ((1 : ℚ) / 1000000) [((0 : ℚ), 0, 0), ((0 : ℚ), 0, 0)] (by decide)

/-- Failing input for claim C5: a block comment containing a `//`
sequence sits between the two triplets of the vertices section. -/
def orderTrap : List Char := ("vertices ( (0 0 0) /* x // y */ (1 1 1) );").toList

/-- Claim C5 fails on the code through the comment-stripping slip of C2:
after proper comment removal, the vertex-bearing span of `orderTrap`
consists of exactly the two well-formed triplets `(0 0 0)` and `(1 1 1)`
in left-to-right order, so the claim requires the scan to return those
two coordinates; the program instead fails to find the vertices section,
because the line-comment substitution runs first and erases the closing
marker of the block comment together with the section's terminator.  On
the same span without the comment the scan does return the two
coordinates in order (order preservation itself is not at fault; the
supporting lemmas `findTriplets_render` and `parse_render` prove it for
whole rendered families of comment-free inputs). -/
theorem C5_order_bug :
    (∃ span, findVertices (specStripComments orderTrap) = some span ∧
      findTriplets span = [(0, 0, 0), (1, 1, 1)]) ∧
    parse_blockmesh_dict orderTrap
      = Except.error ("Could not find vertices section in blockMeshDict") ∧
    parse_blockmesh_dict (("vertices ( (0 0 0)  (1 1 1) );").toList)
      = Except.ok [(0, 0, 0), (1, 1, 1)] := by
  refine ⟨⟨(" (0 0 0)  (1 1 1) ").toList, ?_, ?_⟩, ?_, ?_⟩ <;>
    (set_option maxRecDepth 8000 in with_unfolding_all decide)

/-- Claim C6: a malformed parenthesis group inside the span is silently
skipped, not fatal: the spec's example parses to exactly the two good
triplets. -/
theorem C6_malformed_skipped :
    parse_blockmesh_dict (("vertices ( (0 0 0) (bad val here) (1 1 1) );").toList)
      = Except.ok [(0, 0, 0), (1, 1, 1)] := by
  set_option maxRecDepth 8000 in with_unfolding_all decide

/-- Claim C7: in every vertex group the member indices are strictly
ascending, the representative coordinate is the coordinate of the smallest
member index, a singleton group is labeled by the plain decimal string of
its index, and a larger group is labeled by the comma-joined ascending
list of its member indices. -/
theorem C7_representative_label (ε : ℚ) (vs : List Coord) (p : Coord × List ℕ)
    (hp : p ∈ vertexGroups ε vs) :
    List.Pairwise (· < ·) p.2 ∧
    (∃ m, m ∈ p.2 ∧ (∀ x ∈ p.2, m ≤ x) ∧ groupRep vs p.2 = vs.getD m (0, 0, 0)) ∧
    (p.2.length = 1 → groupLabel p.2 = toString (p.2.headD 0)) ∧
    (2 ≤ p.2.length →
      groupLabel p.2 = String.intercalate (",") (p.2.map (fun i => toString i))) := by
  have hsorted := vertexGroups_sorted hp
  have hne := (vertexGroups_char hp).2
  refine ⟨hsorted, ?_, ?_, ?_⟩
  · rcases hl : p.2 with _ | ⟨m, rest⟩
    · exact absurd hl hne
    · refine ⟨m, by simp, ?_, ?_⟩
      · intro x hx
        rcases List.mem_cons.mp hx with h1 | h1
        · exact le_of_eq h1.symm
        · rw [hl] at hsorted
          exact le_of_lt (List.rel_of_pairwise_cons hsorted h1)
      · rw [groupRep]
        rfl
  · intro hlen
    rw [groupLabel, if_neg (by omega)]
  · intro hlen
    rw [groupLabel, if_pos (by omega)]

/-- Witness for C7 on the group of the two coinciding coordinates of a
concrete three-point sequence. -/
theorem C7_representative_label_witness :
    List.Pairwise (· < ·) (((0 : ℚ), 0, 0), [0, 2]).2 ∧
    (∃ m, m ∈ (((0 : ℚ), 0, 0), [0, 2]).2 ∧ (∀ x ∈ (((0 : ℚ), 0, 0), [0, 2]).2, m ≤ x) ∧
      groupRep [((0 : ℚ), 0, 0), ((1 : ℚ), 1, 1), ((0 : ℚ), 0, 0)] (((0 : ℚ), 0, 0), [0, 2]).2
        = [((0 : ℚ), 0, 0), ((1 : ℚ), 1, 1), ((0 : ℚ), 0, 0)].getD m (0, 0, 0)) ∧
    ((((0 : ℚ), 0, 0), [0, 2]).2.length = 1 →
      groupLabel (((0 : ℚ), 0, 0), [0, 2]).2 = toString ((((0 : ℚ), 0, 0), [0, 2]).2.headD 0)) ∧
    (2 ≤ (((0 : ℚ), 0, 0), [0, 2]).2.length →
      groupLabel (((0 : ℚ), 0, 0), [0, 2]).2
        = String.intercalate (",") ((((0 : ℚ), 0, 0), [0, 2]).2.map (fun i => toString i))) :=
  C7_representative_label ((1 : ℚ) / 1000000)
    [((0 : ℚ), 0, 0), ((1 : ℚ), 1, 1), ((0 : ℚ), 0, 0)] (((0 : ℚ), 0, 0), [0, 2])
    (by with_unfolding_all decide)

/-- Claim C8: the duplicates flag is set exactly when some group has two
or more members; in particular it is false when all coordinates are
pairwise further apart than the tolerance on some axis. -/
theorem C8_duplicates_flag (ε : ℚ) (vs : List Coord) (hε : 0 < ε) :
    (duplicatesFound ε vs = true ↔ ∃ p ∈ vertexGroups ε vs, 2 ≤ p.2.length) ∧
    ((∀ i j, i < vs.length → j < vs.length → i ≠ j →
        beyondTol ε (coordAt vs i) (coordAt vs j)) → duplicatesFound ε vs = false) := by
  constructor
  · rw [duplicatesFound, List.any_eq_true]
    constructor
    · rintro ⟨p, hp, hd⟩
      rw [decide_eq_true_eq] at hd
      exact ⟨p, hp, by omega⟩
    · rintro ⟨p, hp, hd⟩
      exact ⟨p, hp, decide_eq_true (by omega)⟩
  · intro hsep
    by_contra hdup
    rw [Bool.not_eq_false, duplicatesFound, List.any_eq_true] at hdup
    obtain ⟨p, hp, hd⟩ := hdup
    rw [decide_eq_true_eq] at hd
    have hnodup : p.2.Nodup := by
      rw [(vertexGroups_char hp).1]
      exact (List.nodup_range _).filter _
    rcases hl : p.2 with _ | ⟨a, rest⟩
    · rw [hl] at hd
      simp at hd
    · rcases rest with _ | ⟨b, rest2⟩
      · rw [hl] at hd
        simp at hd
      · have ha : a ∈ p.2 := by rw [hl]; simp
        have hb : b ∈ p.2 := by rw [hl]; simp
        have hab : a ≠ b := by
          rw [hl] at hnodup
          have hnotin := (List.nodup_cons.mp hnodup).1
          intro he
          exact hnotin (by rw [he]; simp)
        have h1 := (mem_group_iff hp a).mp ha
        have h2 := (mem_group_iff hp b).mp hb
        have hkeys : keyOf ε vs a = keyOf ε vs b := by rw [h1.2, h2.2]
        exact quantKey_ne_of_beyond hε (hsep a b h1.1 h2.1 hab) hkeys

/-- Witness for C8 on a concrete sequence of two well-separated points. -/
theorem C8_duplicates_flag_witness :
    duplicatesFound ((1 : ℚ) / 1000000) [((0 : ℚ), 0, 0), ((1 : ℚ), 0, 0)] = false :=
  (C8_duplicates_flag ((1 : ℚ) / 1000000) [((0 : ℚ), 0, 0), ((1 : ℚ), 0, 0)]
      (by norm_num)).2
    (by
      intro i j hi hj hne
      have hi2 : i < 2 := by simpa using hi
      have hj2 : j < 2 := by simpa using hj
      interval_cases i <;> interval_cases j <;>
        first
        | exact absurd rfl hne
        | (with_unfolding_all decide))

/-- Claim C9: in the process model, any failure while reading or parsing
the input is caught and turned into exit code 1, a viewer failure after a
successful parse propagates uncaught, and the all-success path exits 0. -/
theorem C9_toplevel_catch (readFile : Except String (List Char))
    (viewer : List Coord → Except String Unit) :
    (∀ e, readFile.bind parse_blockmesh_dict = Except.error e →
      mainModel readFile viewer = Except.ok 1) ∧
    (∀ vs e, readFile.bind parse_blockmesh_dict = Except.ok vs →
      viewer vs = Except.error e → mainModel readFile viewer = Except.error e) ∧
    (∀ vs, readFile.bind parse_blockmesh_dict = Except.ok vs →
      viewer vs = Except.ok () → mainModel readFile viewer = Except.ok 0) := by
  refine ⟨?_, ?_, ?_⟩
  · intro e he
    simp [mainModel, he]
  · intro vs e h1 h2
    simp [mainModel, h1, h2]
  · intro vs h1 h2
    simp [mainModel, h1, h2]

/-- Witness for C9: a missing file is caught and exits 1, a viewer
failure after a successful parse propagates, success exits 0. -/
theorem C9_toplevel_catch_witness :
    mainModel (Except.error ("No such file or directory"))
      (fun _ => Except.ok ()) = Except.ok 1 ∧
    mainModel (Except.ok (("vertices ((1 2 3));").toList))
      (fun _ => Except.error ("backend unavailable")) = Except.error ("backend unavailable") ∧
    mainModel (Except.ok (("vertices ((1 2 3));").toList))
      (fun _ => Except.ok ()) = Except.ok 0 :=
  ⟨(C9_toplevel_catch (Except.error ("No such file or directory"))
      (fun _ => Except.ok ())).1 ("No such file or directory") rfl,
   (C9_toplevel_catch (Except.ok (("vertices ((1 2 3));").toList))
      (fun _ => Except.error ("backend unavailable"))).2.1 [((1 : ℚ), 2, 3)]
     ("backend unavailable") (by with_unfolding_all decide) rfl,
   (C9_toplevel_catch (Except.ok (("vertices ((1 2 3));").toList))
      (fun _ => Except.ok ())).2.2 [((1 : ℚ), 2, 3)] (by with_unfolding_all decide) rfl⟩

/-- Claim C10: section isolation has no word boundary and uses the first
position where the whole pattern matches: the search equals the first
successful anchored match over all suffixes, an occurrence of `vertices`
embedded in `myvertices` starts the span, and with two sections the first
one is used. -/
theorem C10_no_word_boundary :
    (∀ s : List Char, findVertices s = (s.tails.filterMap matchVerticesAt).head?) ∧
    parse_blockmesh_dict (("myvertices ( (1 2 3) ); vertices ( (0 0 0) );").toList)
      = Except.ok [(1, 2, 3)] ∧
    parse_blockmesh_dict (("vertices ( (1 1 1) ); vertices ( (2 2 2) );").toList)
      = Except.ok [(1, 1, 1)] := by
  refine ⟨findVertices_eq_tails, ?_, ?_⟩ <;>
    (set_option maxRecDepth 8000 in with_unfolding_all decide)
